import Mathlib

/-!
Verification of the job admission / image-transform core of the royce-api-v2
service (`src/services/image_processor_service.py`, `src/main.py`).

The Python code is shallowly embedded: the quota ledger, the RPS rate
limiter, the geometric preprocessors/postprocessors and the batch
coordinator are translated into executable Lean definitions, and the spec's
claims are proved (or refuted) about those definitions.

Conventions of the embedding:
* calendar dates are opaque natural numbers (only equality of dates matters
  to the code);
* monotonic-clock instants are rationals;
* Python float arithmetic on the small quantities involved is modelled by
  exact rational arithmetic, with Python's bankers rounding (`round`)
  modelled by `pyRound`;
* a PIL image is a list of pixel rows, each row a list of 8-bit grayscale
  values (the trim / crop / draw operations used by the code only ever act
  through the grayscale view);
* `asyncio` locks serialize their critical sections, so a set of concurrent
  lock-guarded calls is modelled as a fold over an arbitrary arrival order.
-/

namespace RoyceApi

/-! ## Quota ledger (`_load_quota_state`, `_save_quota_state`, `_reserve_quota`) -/

/-- In-memory plus persisted quota state.
`qdate`/`count` are `self._quota_date` / `self._quota_count`;
`persisted` is the `{date, count}` record in `logs/qwen_usage.json`. -/
structure QuotaS where
  qdate : ℕ
  count : ℕ
  persisted : ℕ × ℕ
  deriving DecidableEq, Repr

/-- Error raised by `_reserve_quota` (`QuotaExceededError`). -/
inductive QuotaErr where
  | quotaExceeded
  deriving DecidableEq, Repr

/-- `_load_quota_state`: read the stored `{date, count}` record (`none` when
the file does not exist); a record whose date is not today resets the count
to 0 and rewrites the file; a missing file writes the fresh in-memory state
(date = today, count = 0). -/
def loadQuotaState (today : ℕ) (file : Option (ℕ × ℕ)) : QuotaS :=
  match file with
  | some (d, c) =>
      if d = today then ⟨d, c, (d, c)⟩
      else ⟨today, 0, (today, 0)⟩
  | none => ⟨today, 0, (today, 0)⟩

/-- `_reserve_quota(units)` under `self._quota_lock`: re-check the date and
reset on rollover, reject when `count + units` would exceed `free_quota`
(raising `QuotaExceededError`, leaving the counters untouched), otherwise
increment and persist (`_save_quota_state`) before returning. -/
def reserveQuota (freeQuota today units : ℕ) (s : QuotaS) :
    QuotaS × Except QuotaErr Unit :=
  let s₁ : QuotaS :=
    if s.qdate ≠ today then { s with qdate := today, count := 0 } else s
  if freeQuota < s₁.count + units then
    (s₁, .error .quotaExceeded)
  else
    let s₂ : QuotaS := { s₁ with count := s₁.count + units }
    ({ s₂ with persisted := (s₂.qdate, s₂.count) }, .ok ())

/-- Run `n` serialized `reserve(1)` calls (the `asyncio.Lock` serializes the
concurrent callers; the arrival order is irrelevant since all calls are
identical).  Returns the final state together with the number of successful
and of failed reservations. -/
def runReserves (freeQuota today : ℕ) (s : QuotaS) : ℕ → QuotaS × ℕ × ℕ
  | 0 => (s, 0, 0)
  | n + 1 =>
      let r := reserveQuota freeQuota today 1 s
      let rest := runReserves freeQuota today r.1 n
      match r.2 with
      | .ok _ => (rest.1, rest.2.1 + 1, rest.2.2)
      | .error _ => (rest.1, rest.2.1, rest.2.2 + 1)

/-- Fresh same-day state: count 0, persisted record `{today, 0}`. -/
def freshQuota (today : ℕ) : QuotaS := ⟨today, 0, (today, 0)⟩

lemma reserveQuota_sameday (freeQuota today : ℕ) (s : QuotaS)
    (hd : s.qdate = today) :
    reserveQuota freeQuota today 1 s =
      if freeQuota < s.count + 1 then (s, .error .quotaExceeded)
      else ({ qdate := today, count := s.count + 1,
              persisted := (today, s.count + 1) }, .ok ()) := by
  obtain ⟨d, c, pr⟩ := s
  have hd2 : d = today := hd
  subst hd2
  simp [reserveQuota]

lemma runReserves_succ_fail (Q today n : ℕ) (s : QuotaS)
    (hd : s.qdate = today) (h : Q < s.count + 1) :
    runReserves Q today s (n + 1) =
      ((runReserves Q today s n).1,
       (runReserves Q today s n).2.1,
       (runReserves Q today s n).2.2 + 1) := by
  rw [runReserves, reserveQuota_sameday Q today s hd, if_pos h]

lemma runReserves_succ_ok (Q today n : ℕ) (s : QuotaS)
    (hd : s.qdate = today) (h : ¬ Q < s.count + 1) :
    runReserves Q today s (n + 1) =
      ((runReserves Q today
          { qdate := today, count := s.count + 1,
            persisted := (today, s.count + 1) } n).1,
       (runReserves Q today
          { qdate := today, count := s.count + 1,
            persisted := (today, s.count + 1) } n).2.1 + 1,
       (runReserves Q today
          { qdate := today, count := s.count + 1,
            persisted := (today, s.count + 1) } n).2.2) := by
  rw [runReserves, reserveQuota_sameday Q today s hd, if_neg h]

/-- Core induction: starting the same day with `c ≤ Q` reservations used,
`n` serialized `reserve(1)` calls drive the count to `min (c+n) Q`, with
`min (c+n) Q - c` successes and the rest failures, and the persisted record
tracks the count whenever at least one success happened. -/
lemma runReserves_spec (Q today : ℕ) :
    ∀ (n : ℕ) (s : QuotaS), s.qdate = today → s.count ≤ Q →
      (runReserves Q today s n).1.count = min (s.count + n) Q ∧
      (runReserves Q today s n).1.qdate = today ∧
      (runReserves Q today s n).2.1 = min (s.count + n) Q - s.count ∧
      (runReserves Q today s n).2.2 = n - (min (s.count + n) Q - s.count) ∧
      (runReserves Q today s n).1.persisted =
        (if min (s.count + n) Q = s.count then s.persisted
         else (today, min (s.count + n) Q)) := by
  intro n
  induction n with
  | zero =>
      intro s hd hc
      have hm : min (s.count + 0) Q = s.count := by omega
      simp only [runReserves, hm]
      exact ⟨trivial, hd, by omega, by omega, by simp⟩
  | succ n ih =>
      intro s hd hc
      by_cases h : Q < s.count + 1
      · rw [runReserves_succ_fail Q today n s hd h]
        dsimp only
        obtain ⟨h1, h2, h3, h4, h5⟩ := ih s hd hc
        have m1 : min (s.count + n) Q = s.count := by omega
        have m2 : min (s.count + (n + 1)) Q = s.count := by omega
        rw [m1] at h1 h3 h4 h5
        refine ⟨by rw [h1, m2], h2, by rw [h3, m2], by rw [h4]; omega, ?_⟩
        rw [h5, m2]
      · rw [runReserves_succ_ok Q today n s hd h]
        dsimp only
        have hle : s.count + 1 ≤ Q := by omega
        obtain ⟨h1, h2, h3, h4, h5⟩ :=
          ih { qdate := today, count := s.count + 1,
               persisted := (today, s.count + 1) } rfl hle
        simp only at h1 h2 h3 h4 h5
        have meq : min (s.count + 1 + n) Q = min (s.count + (n + 1)) Q := by
          omega
        rw [meq] at h1 h3 h4 h5
        refine ⟨h1, h2, by rw [h3]; omega, by rw [h4]; omega, ?_⟩
        rw [h5]
        have hne : ¬ min (s.count + (n + 1)) Q = s.count := by omega
        rw [if_neg hne]
        by_cases hmin : min (s.count + (n + 1)) Q = s.count + 1
        · simp [hmin]
        · simp [hmin]

/-! ## Single-job orchestration (`process_image`) -/

/-- Outcome of one `process_image` call: a propagated `QuotaExceededError`,
a `None` result (any other failure is swallowed and surfaced as `None`), or
a successful result dict. -/
inductive JobOutcome where
  | quotaExceeded
  | failed
  | success
  deriving DecidableEq, Repr

/-- The per-job environment: whether each fallible stage of `process_image`
would succeed (preprocessing returning an image rather than `None`, the
provider call `generate_from_qwen` returning a result, and the
post-processing / saving stage completing without an exception). -/
structure JobEnv where
  preprocessOk : Bool
  providerOk : Bool
  postprocessOk : Bool
  deriving DecidableEq, Repr

/-- `process_image`: reserve one quota unit first (`_reserve_quota(1)`); a
`QuotaExceededError` propagates to the caller before anything else runs;
after a granted reservation the stages run in order and any failure returns
`None` — no path ever decrements or re-persists the quota.  Returns the
final quota state, the job outcome, and whether `generate_from_qwen` (the
provider call) was reached. -/
def processImage (freeQuota today : ℕ) (s : QuotaS) (env : JobEnv) :
    QuotaS × JobOutcome × Bool :=
  let r := reserveQuota freeQuota today 1 s
  match r.2 with
  | .error .quotaExceeded => (r.1, .quotaExceeded, false)
  | .ok _ =>
      if !env.preprocessOk then (r.1, .failed, false)
      else if !env.providerOk then (r.1, .failed, true)
      else if !env.postprocessOk then (r.1, .failed, true)
      else (r.1, .success, true)

/-! ## Claim theorems for the quota ledger and orchestrator -/

/-- **C1.** For a daily quota `Q` and `C > Q` serialized concurrent
`reserve(1)` calls from a fresh same-day state: exactly `Q` succeed and
`C − Q` fail with `QuotaExceeded`; the final count and persisted record
equal `Q`; after any number of calls from any same-day state within the
limit the count never exceeds the limit; a failed reservation leaves the
state (count and persisted record) unchanged; and a successful reservation
increments the count and persists the new state before returning. -/
theorem claim_C1_quota_ledger (Q C today : ℕ) (hC : Q < C) :
    (runReserves Q today (freshQuota today) C).2.1 = Q ∧
    (runReserves Q today (freshQuota today) C).2.2 = C - Q ∧
    (runReserves Q today (freshQuota today) C).1.count = Q ∧
    (runReserves Q today (freshQuota today) C).1.persisted = (today, Q) ∧
    (∀ n s, s.qdate = today → s.count ≤ Q →
        (runReserves Q today s n).1.count ≤ Q) ∧
    (∀ s : QuotaS, s.qdate = today →
        (reserveQuota Q today 1 s).2 = .error .quotaExceeded →
        (reserveQuota Q today 1 s).1 = s) ∧
    (∀ s : QuotaS, s.qdate = today →
        (reserveQuota Q today 1 s).2 = .ok () →
        (reserveQuota Q today 1 s).1.count = s.count + 1 ∧
        (reserveQuota Q today 1 s).1.persisted = (today, s.count + 1)) := by
  obtain ⟨h1, h2, h3, h4, h5⟩ :=
    runReserves_spec Q today C (freshQuota today) rfl (Nat.zero_le Q)
  have hmin : min ((freshQuota today).count + C) Q = Q := by
    simp only [freshQuota]
    omega
  rw [hmin] at h1 h3 h4 h5
  refine ⟨by simpa using h3, by simpa using h4, h1, ?_, ?_, ?_, ?_⟩
  · rw [h5]
    by_cases hQ : Q = (freshQuota today).count
    · simp [hQ, freshQuota]
    · simp only [hQ, if_false]
  · intro n s hd hc
    obtain ⟨g1, _, _, _, _⟩ := runReserves_spec Q today n s hd hc
    omega
  · intro s hd herr
    rw [reserveQuota_sameday Q today s hd] at herr ⊢
    by_cases h : Q < s.count + 1
    · rw [if_pos h]
    · rw [if_neg h] at herr
      exact absurd herr (by simp)
  · intro s hd hok
    rw [reserveQuota_sameday Q today s hd] at hok ⊢
    by_cases h : Q < s.count + 1
    · rw [if_pos h] at hok
      exact absurd hok (by simp)
    · rw [if_neg h]
      exact ⟨rfl, rfl⟩

/-- Witness for C1 at `Q = 2`, `C = 5`. -/
theorem claim_C1_quota_ledger_witness :
    (runReserves 2 0 (freshQuota 0) 5).2.1 = 2 ∧
    (runReserves 2 0 (freshQuota 0) 5).2.2 = 3 ∧
    (runReserves 2 0 (freshQuota 0) 5).1.persisted = (0, 2) :=
  ⟨(claim_C1_quota_ledger 2 5 0 (by decide)).1,
   (claim_C1_quota_ledger 2 5 0 (by decide)).2.1,
   (claim_C1_quota_ledger 2 5 0 (by decide)).2.2.2.1⟩

/-- **C4.** `process_image`: when quota reservation fails with
`QuotaExceeded`, the provider is never called and the quota state (the only
candidate side effect before the provider call) is unchanged; on every
other path the reservation's quota unit stays consumed — the count is
incremented and persisted, and it is never rolled back regardless of
provider or post-processing failure. -/
theorem claim_C4_no_rollback (Q today : ℕ) (s : QuotaS) (env : JobEnv)
    (hd : s.qdate = today) :
    ((processImage Q today s env).2.1 = .quotaExceeded →
        (processImage Q today s env).1 = s ∧
        (processImage Q today s env).2.2 = false) ∧
    ((processImage Q today s env).2.1 ≠ .quotaExceeded →
        (processImage Q today s env).1.count = s.count + 1 ∧
        (processImage Q today s env).1.persisted = (today, s.count + 1)) := by
  obtain ⟨p, pr, po⟩ := env
  by_cases h : Q < s.count + 1 <;>
    cases p <;> cases pr <;> cases po <;>
      simp [processImage, reserveQuota_sameday Q today s hd, h]

/-- Witness for C4: quota available, provider fails — unit stays consumed. -/
theorem claim_C4_no_rollback_witness :
    (processImage 5 0 (freshQuota 0) ⟨true, false, true⟩).2.1 ≠
        JobOutcome.quotaExceeded ∧
    (processImage 5 0 (freshQuota 0) ⟨true, false, true⟩).1.count = 1 :=
  ⟨by decide,
   ((claim_C4_no_rollback 5 0 (freshQuota 0) ⟨true, false, true⟩ rfl).2
      (by decide)).1⟩

/-- **C5.** Date rollover: `_load_quota_state` on a stored record whose date
is not today resets the state to `{date: today, count: 0}` (and persists
it); and `_reserve_quota` itself re-checks the date, so a call on a
stale-dated state behaves exactly like the same call on that state with
date reset to today and count reset to 0. -/
theorem claim_C5_daily_reset (today y c Q u : ℕ) (hy : y ≠ today) :
    loadQuotaState today (some (y, c)) = ⟨today, 0, (today, 0)⟩ ∧
    (∀ s : QuotaS, s.qdate ≠ today →
        reserveQuota Q today u s =
          reserveQuota Q today u ⟨today, 0, s.persisted⟩) := by
  constructor
  · simp [loadQuotaState, hy]
  · intro s hs
    simp [reserveQuota, hs]

/-- Witness for C5: yesterday's record with count 7 loads as count 0. -/
theorem claim_C5_daily_reset_witness :
    loadQuotaState 1 (some (0, 7)) = ⟨1, 0, (1, 0)⟩ :=
  (claim_C5_daily_reset 1 0 7 3 1 (by decide)).1

/-! ## Image model

A PIL image is modelled through its grayscale view: a list of pixel rows,
each row a list of intensities (0 = black, 255 = white).  The trim / crop /
draw operations of the pipeline act pointwise or by slicing rows, so the
grayscale view is faithful for every claim below. -/

/-- A grayscale image: rows of pixels. -/
abbrev Img := List (List ℕ)

/-- `img.size[0]`: width = length of a row (0 for an empty image). -/
def imgWidth (im : Img) : ℕ := (im.headD []).length

/-- `img.size[1]`: height = number of rows. -/
def imgHeight (im : Img) : ℕ := im.length

/-- A well-formed (rectangular) image: every row has length `W`. -/
def Rectangular (im : Img) (W : ℕ) : Prop := ∀ row ∈ im, row.length = W

/-- Pixel lookup: `some` intensity inside the canvas, `none` outside. -/
def px (im : Img) (x y : ℕ) : Option ℕ := im[y]?.bind (fun row => row[x]?)

/-- `PIL.Image.crop((l, t, r, b))` for a box inside the canvas: rows
`t ≤ y < b`, columns `l ≤ x < r`. -/
def cropImg (im : Img) (l t r b : ℕ) : Img :=
  ((im.drop t).take (b - t)).map (fun row => (row.drop l).take (r - l))

/-- `ImageDraw.rectangle([x1, y1, x2, y2], fill)`: PIL paints the rectangle
including both corner coordinates. -/
def drawRect (im : Img) (x1 y1 x2 y2 v : ℕ) : Img :=
  im.mapIdx (fun y row =>
    if y1 ≤ y ∧ y ≤ y2 then
      row.mapIdx (fun x p => if x1 ≤ x ∧ x ≤ x2 then v else p)
    else row)

/-- `gray_im.point(lambda p: 255 if p > threshold else p)`. -/
def pointThresh (threshold p : ℕ) : ℕ := if threshold < p then 255 else p

/-- `ImageChops.invert` on an 8-bit grayscale image. -/
def invertPx (p : ℕ) : ℕ := 255 - p

/-- Column `x` contains a non-zero pixel. -/
def colNZ (im : Img) (x : ℕ) : Bool := im.any (fun row => row.getD x 0 != 0)

/-- Row `y` contains a non-zero pixel. -/
def rowNZ (im : Img) (y : ℕ) : Bool := (im.getD y []).any (fun p => p != 0)

/-- `Image.getbbox()`: the smallest box `(left, upper, right, lower)`
containing all non-zero pixels, or `none` when every pixel is zero. -/
def getbbox (im : Img) : Option (ℕ × ℕ × ℕ × ℕ) :=
  match (List.range (imgWidth im)).filter (colNZ im),
        (List.range (imgHeight im)).filter (rowNZ im) with
  | x0 :: xt, y0 :: yt =>
      some (x0, y0, (x0 :: xt).getLastD 0 + 1, (y0 :: yt).getLastD 0 + 1)
  | _, _ => none

/-- `trim_white_borders(im, threshold=240)`: grayscale, threshold, invert,
crop to the bounding box of non-zero content (or return `im` unchanged). -/
def trimWhiteBorders (im : Img) (threshold : ℕ := 240) : Img :=
  let binIm := im.map (List.map (pointThresh threshold))
  let invertedIm := binIm.map (List.map invertPx)
  match getbbox invertedIm with
  | some (l, t, r, b) => cropImg im l t r b
  | none => im

/-- `preprocess_technical_image`: paint the white rectangle at
`(1509, 656)` of size `24 × 291`, then crop 150 rows from the top and 28
from the bottom exactly when `enable_crop` is set and the image is exactly
`1555 × 1000`; any other size skips the crop. -/
def preprocessTechnicalImage (im : Img) (enableCrop : Bool) : Img :=
  let img := drawRect im 1509 656 (1509 + 24) (656 + 291) 255
  if enableCrop then
    let width := imgWidth img
    let height := imgHeight img
    if width = 1555 ∧ height = 1000 then
      cropImg img 0 150 width (height - 28)
    else img
  else img

lemma length_row_drawRect (im : Img) (x1 y1 x2 y2 v y : ℕ) :
    ((drawRect im x1 y1 x2 y2 v)[y]?.map List.length) = im[y]?.map List.length := by
  unfold drawRect
  rw [List.getElem?_mapIdx]
  rcases h : im[y]? with _ | row
  · simp
  · simp only [Option.map_some', Option.some.injEq]
    by_cases hcond : y1 ≤ y ∧ y ≤ y2
    · simp [hcond]
    · rw [if_neg hcond]

lemma imgHeight_drawRect (im : Img) (x1 y1 x2 y2 v : ℕ) :
    imgHeight (drawRect im x1 y1 x2 y2 v) = imgHeight im := by
  simp [imgHeight, drawRect]

lemma rectangular_drawRect (im : Img) (W x1 y1 x2 y2 v : ℕ)
    (h : Rectangular im W) :
    Rectangular (drawRect im x1 y1 x2 y2 v) W := by
  intro row hrow
  rw [List.mem_iff_getElem?] at hrow
  obtain ⟨y, hy⟩ := hrow
  have hlen := length_row_drawRect im x1 y1 x2 y2 v y
  rw [hy] at hlen
  rcases h2 : im[y]? with _ | row'
  · rw [h2] at hlen
    simp at hlen
  · rw [h2] at hlen
    simp only [Option.map_some', Option.some.injEq] at hlen
    rw [hlen]
    exact h row' (List.mem_iff_getElem?.mpr ⟨y, h2⟩)

lemma imgWidth_of_rectangular (im : Img) (W : ℕ) (h : Rectangular im W)
    (hne : im ≠ []) : imgWidth im = W := by
  rcases im with _ | ⟨row, rest⟩
  · exact absurd rfl hne
  · exact h row (List.mem_cons_self row rest)

lemma imgWidth_drawRect (im : Img) (x1 y1 x2 y2 v : ℕ) :
    imgWidth (drawRect im x1 y1 x2 y2 v) = imgWidth im := by
  rcases im with _ | ⟨row, rest⟩
  · rfl
  · simp only [imgWidth, drawRect, List.mapIdx_cons, List.headD_cons]
    by_cases hcond : y1 ≤ 0 ∧ 0 ≤ y2
    · simp [hcond]
    · rw [if_neg hcond]

lemma imgHeight_cropImg (im : Img) (l t r b : ℕ) :
    imgHeight (cropImg im l t r b) = min (b - t) (im.length - t) := by
  simp [cropImg, imgHeight]

lemma rectangular_cropImg (im : Img) (W l t r b : ℕ) (h : Rectangular im W) :
    Rectangular (cropImg im l t r b) (min (r - l) (W - l)) := by
  intro row hrow
  simp only [cropImg, List.mem_map] at hrow
  obtain ⟨row₀, hmem, hrw⟩ := hrow
  have hr0 : row₀ ∈ im := List.mem_of_mem_drop (List.mem_of_mem_take hmem)
  rw [← hrw]
  simp [h row₀ hr0]

lemma preprocessTechnical_eq (im : Img) :
    preprocessTechnicalImage im true =
      (let img := drawRect im 1509 656 (1509 + 24) (656 + 291) 255
       if imgWidth img = 1555 ∧ imgHeight img = 1000 then
         cropImg img 0 150 (imgWidth img) (imgHeight img - 28)
       else img) := rfl

/-- **C7.** The technical preprocessor with crop enabled crops 150 rows from
the top and 28 from the bottom exactly when the image is exactly
`1555 × 1000` (output `1555 × 822`); for every other size the output
dimensions equal the input dimensions (the crop is skipped, not an error). -/
theorem claim_C7_technical_crop (im : Img) (W : ℕ) (hrect : Rectangular im W) :
    ((imgWidth im = 1555 ∧ imgHeight im = 1000) →
        imgWidth (preprocessTechnicalImage im true) = 1555 ∧
        imgHeight (preprocessTechnicalImage im true) = 822) ∧
    (¬ (imgWidth im = 1555 ∧ imgHeight im = 1000) →
        imgWidth (preprocessTechnicalImage im true) = imgWidth im ∧
        imgHeight (preprocessTechnicalImage im true) = imgHeight im) := by
  have hW' := imgWidth_drawRect im 1509 656 (1509 + 24) (656 + 291) 255
  have hH' := imgHeight_drawRect im 1509 656 (1509 + 24) (656 + 291) 255
  have hrect' := rectangular_drawRect im W 1509 656 (1509 + 24) (656 + 291) 255 hrect
  rw [preprocessTechnical_eq im]
  set img := drawRect im 1509 656 (1509 + 24) (656 + 291) 255 with himg
  simp only
  constructor
  · rintro ⟨hw, hh⟩
    have hcond : imgWidth img = 1555 ∧ imgHeight img = 1000 := by
      rw [hW', hH']; exact ⟨hw, hh⟩
    rw [if_pos hcond]
    have hlenim : List.length im = 1000 := hh
    have hlenimg : List.length img = 1000 := by
      have : imgHeight img = 1000 := hcond.2
      exact this
    have hheight :
        imgHeight (cropImg img 0 150 (imgWidth img) (imgHeight img - 28)) = 822 := by
      rw [imgHeight_cropImg, hcond.2, hlenimg]
      norm_num
    refine ⟨?_, hheight⟩
    have hWim : W = 1555 := by
      have hne : im ≠ [] := by
        intro hnil
        rw [hnil] at hlenim
        exact absurd hlenim (by norm_num)
      rw [← imgWidth_of_rectangular im W hrect hne, hw]
    have hrc := rectangular_cropImg img W 0 150 (imgWidth img) (imgHeight img - 28) hrect'
    have hne : cropImg img 0 150 (imgWidth img) (imgHeight img - 28) ≠ [] := by
      intro hnil
      have h822 := hheight
      rw [hnil] at h822
      exact absurd h822 (by norm_num [imgHeight])
    rw [imgWidth_of_rectangular _ _ hrc hne, hcond.1, hWim]
    norm_num
  · intro hnot
    have hcond : ¬ (imgWidth img = 1555 ∧ imgHeight img = 1000) := by
      rw [hW', hH']; exact hnot
    rw [if_neg hcond]
    exact ⟨hW', hH'⟩

/-- Witness for C7 on a concrete 2×2 image (crop skipped). -/
theorem claim_C7_technical_crop_witness :
    imgWidth (preprocessTechnicalImage [[0, 10], [20, 30]] true) = 2 ∧
    imgHeight (preprocessTechnicalImage [[0, 10], [20, 30]] true) = 2 :=
  (claim_C7_technical_crop [[0, 10], [20, 30]] 2
      (by unfold Rectangular; decide)).2 (by decide)

/-! ## Order helpers for the bounding-box analysis -/

lemma getLastD_mem_cons {α : Type} :
    ∀ (l : List α) (a d : α), (a :: l).getLastD d ∈ a :: l
  | [], a, d => by simp [List.getLastD_cons]
  | b :: l, a, d => by
      rw [List.getLastD_cons]
      exact List.mem_cons_of_mem a (getLastD_mem_cons l b a)

lemma le_getLastD_of_sorted {α : Type} [Preorder α] :
    ∀ (l : List α), l.Sorted (· ≤ ·) → ∀ (d b : α), b ∈ l → b ≤ l.getLastD d
  | [] => by intro _ d b hb; exact absurd hb (List.not_mem_nil b)
  | a :: t => by
      intro hs d b hb
      rw [List.getLastD_cons]
      obtain ⟨hall, htail⟩ := List.sorted_cons.mp hs
      rcases List.mem_cons.mp hb with rfl | hbt
      · rcases t with _ | ⟨c, t'⟩
        · simp
        · exact le_trans (hall c (List.mem_cons_self c t'))
            (le_getLastD_of_sorted (c :: t') htail b c (List.mem_cons_self c t'))
      · exact le_getLastD_of_sorted t htail a b hbt

lemma getLastD_eq_of_max {α : Type} [PartialOrder α] (l : List α)
    (hs : l.Sorted (· ≤ ·)) (a d : α) (ha : a ∈ l) (hmax : ∀ b ∈ l, b ≤ a) :
    l.getLastD d = a := by
  rcases l with _ | ⟨c, t⟩
  · exact absurd ha (List.not_mem_nil a)
  · exact le_antisymm (hmax _ (getLastD_mem_cons t c d))
      (le_getLastD_of_sorted (c :: t) hs d a ha)

lemma sorted_cons_head_eq {α : Type} [PartialOrder α] (c m : α) (t : List α)
    (hs : (c :: t).Sorted (· ≤ ·)) (hm : m ∈ c :: t)
    (hmin : ∀ b ∈ c :: t, m ≤ b) : c = m := by
  obtain ⟨hall, _⟩ := List.sorted_cons.mp hs
  refine le_antisymm ?_ (hmin c (List.mem_cons_self c t))
  rcases List.mem_cons.mp hm with rfl | hmt
  · exact le_refl m
  · exact hall m hmt

lemma sorted_le_of_sorted_lt (l : List ℕ) (h : l.Sorted (· < ·)) :
    l.Sorted (· ≤ ·) := List.Pairwise.imp (fun hab => le_of_lt hab) h

/-! ## Pixel-level characterizations -/

lemma px_map (f : ℕ → ℕ) (im : Img) (x y : ℕ) :
    px (im.map (List.map f)) x y = (px im x y).map f := by
  unfold px
  rw [List.getElem?_map]
  rcases im[y]? with _ | row
  · rfl
  · simp [List.getElem?_map]

lemma colNZ_iff (im : Img) (x : ℕ) :
    colNZ im x = true ↔ ∃ y p, px im x y = some p ∧ p ≠ 0 := by
  unfold colNZ
  rw [List.any_eq_true]
  constructor
  · rintro ⟨row, hrow, hx⟩
    obtain ⟨y, hy⟩ := List.mem_iff_getElem?.mp hrow
    rw [List.getD_eq_getElem?_getD] at hx
    rcases hp : row[x]? with _ | p
    · rw [hp] at hx; simp at hx
    · refine ⟨y, p, ?_, ?_⟩
      · unfold px; rw [hy]; exact hp
      · rw [hp] at hx; simpa using hx
  · rintro ⟨y, p, hpx, hp⟩
    unfold px at hpx
    rcases hy : im[y]? with _ | row
    · rw [hy] at hpx; simp at hpx
    · rw [hy] at hpx
      simp only [Option.some_bind] at hpx
      refine ⟨row, List.mem_iff_getElem?.mpr ⟨y, hy⟩, ?_⟩
      rw [List.getD_eq_getElem?_getD, hpx]
      simpa using hp

lemma rowNZ_iff (im : Img) (y : ℕ) :
    rowNZ im y = true ↔ ∃ x p, px im x y = some p ∧ p ≠ 0 := by
  unfold rowNZ
  rw [List.getD_eq_getElem?_getD]
  rcases hy : im[y]? with _ | row
  · simp only [Option.getD_none]
    constructor
    · intro h; simp at h
    · rintro ⟨x, p, hpx, _⟩
      unfold px at hpx
      rw [hy] at hpx
      simp at hpx
  · simp only [Option.getD_some]
    rw [List.any_eq_true]
    constructor
    · rintro ⟨p, hp, hne⟩
      obtain ⟨x, hx⟩ := List.mem_iff_getElem?.mp hp
      refine ⟨x, p, ?_, by simpa using hne⟩
      unfold px; rw [hy]; exact hx
    · rintro ⟨x, p, hpx, hne⟩
      unfold px at hpx
      rw [hy] at hpx
      simp only [Option.some_bind] at hpx
      exact ⟨p, List.mem_iff_getElem?.mpr ⟨x, hpx⟩, by simpa using hne⟩

lemma px_cropImg (im : Img) (l t r b x y : ℕ) (hx : x < r - l) (hy : y < b - t) :
    px (cropImg im l t r b) x y = px im (l + x) (t + y) := by
  unfold px cropImg
  rw [List.getElem?_map]
  rw [List.getElem?_take, if_pos hy, List.getElem?_drop]
  rcases hrow : im[t + y]? with _ | row
  · rfl
  · simp only [Option.map_some', Option.some_bind]
    rw [List.getElem?_take, if_pos hx, List.getElem?_drop]

/-! ## The inverted-threshold view used by `trim_white_borders` -/

/-- The image `ImageChops.invert(gray.point(lambda p: 255 if p > 240 else p))`
whose bounding box `trim_white_borders` computes. -/
def invView (im : Img) : Img :=
  im.map (List.map (fun p => invertPx (pointThresh 240 p)))

lemma trimWhiteBorders_eq_invView (im : Img) :
    trimWhiteBorders im 240 =
      match getbbox (invView im) with
      | some (l, t, r, b) => cropImg im l t r b
      | none => im := by
  have h0 : trimWhiteBorders im 240 =
      match getbbox ((im.map (List.map (pointThresh 240))).map
          (List.map invertPx)) with
      | some (l, t, r, b) => cropImg im l t r b
      | none => im := rfl
  have hcomp : (im.map (List.map (pointThresh 240))).map (List.map invertPx) =
      invView im := by
    unfold invView
    rw [List.map_map]
    congr 1
    funext row
    simp [List.map_map, Function.comp]
  rw [h0, hcomp]

lemma invpt_ne_zero (p : ℕ) : invertPx (pointThresh 240 p) ≠ 0 ↔ p ≤ 240 := by
  unfold invertPx pointThresh
  by_cases h : 240 < p
  · rw [if_pos h]; omega
  · rw [if_neg h]; omega

lemma px_invView (im : Img) (x y : ℕ) :
    px (invView im) x y =
      (px im x y).map (fun p => invertPx (pointThresh 240 p)) := by
  unfold invView
  exact px_map _ im x y

lemma colNZ_invView_iff (im : Img) (x : ℕ) :
    colNZ (invView im) x = true ↔ ∃ y p, px im x y = some p ∧ p ≤ 240 := by
  rw [colNZ_iff]
  constructor
  · rintro ⟨y, q, hq, hne⟩
    rw [px_invView] at hq
    rcases hpx : px im x y with _ | p
    · rw [hpx] at hq; simp at hq
    · rw [hpx] at hq
      simp only [Option.map_some', Option.some.injEq] at hq
      refine ⟨y, p, hpx, ?_⟩
      rw [← hq] at hne
      exact (invpt_ne_zero p).mp hne
  · rintro ⟨y, p, hpx, hle⟩
    exact ⟨y, invertPx (pointThresh 240 p),
      by rw [px_invView, hpx]; rfl, (invpt_ne_zero p).mpr hle⟩

lemma rowNZ_invView_iff (im : Img) (y : ℕ) :
    rowNZ (invView im) y = true ↔ ∃ x p, px im x y = some p ∧ p ≤ 240 := by
  rw [rowNZ_iff]
  constructor
  · rintro ⟨x, q, hq, hne⟩
    rw [px_invView] at hq
    rcases hpx : px im x y with _ | p
    · rw [hpx] at hq; simp at hq
    · rw [hpx] at hq
      simp only [Option.map_some', Option.some.injEq] at hq
      refine ⟨x, p, hpx, ?_⟩
      rw [← hq] at hne
      exact (invpt_ne_zero p).mp hne
  · rintro ⟨x, p, hpx, hle⟩
    exact ⟨x, invertPx (pointThresh 240 p),
      by rw [px_invView, hpx]; rfl, (invpt_ne_zero p).mpr hle⟩

lemma imgWidth_map_map (f : ℕ → ℕ) (im : Img) :
    imgWidth (im.map (List.map f)) = imgWidth im := by
  rcases im with _ | ⟨row, rest⟩ <;> simp [imgWidth]

lemma imgWidth_invView (im : Img) : imgWidth (invView im) = imgWidth im :=
  imgWidth_map_map _ im

lemma imgHeight_invView (im : Img) : imgHeight (invView im) = imgHeight im := by
  simp [invView, imgHeight]

/-! ## Bounding-box characterization -/

lemma getbbox_none_of_blank (im : Img)
    (h : ∀ x, colNZ im x = false) : getbbox im = none := by
  have hxs : (List.range (imgWidth im)).filter (colNZ im) = [] := by
    rw [List.filter_eq_nil_iff]
    intro a _
    rw [h a]
    exact Bool.false_ne_true
  unfold getbbox
  rw [hxs]

lemma getbbox_of_filters (im : Img) (x0 y0 : ℕ) (xt yt : List ℕ)
    (hxs : (List.range (imgWidth im)).filter (colNZ im) = x0 :: xt)
    (hys : (List.range (imgHeight im)).filter (rowNZ im) = y0 :: yt) :
    getbbox im =
      some (x0, y0, (x0 :: xt).getLastD 0 + 1, (y0 :: yt).getLastD 0 + 1) := by
  unfold getbbox
  rw [hxs, hys]

/-- All the structural facts `trim_white_borders` needs about a successful
`getbbox`: the box is non-degenerate, inside the canvas, its four border
lines carry non-zero content, and all non-zero content lies inside it. -/
lemma getbbox_some_spec (im : Img) (l t r b : ℕ)
    (h : getbbox im = some (l, t, r, b)) :
    l < r ∧ t < b ∧ r ≤ imgWidth im ∧ b ≤ imgHeight im ∧
    colNZ im l = true ∧ colNZ im (r - 1) = true ∧
    rowNZ im t = true ∧ rowNZ im (b - 1) = true ∧
    (∀ x, colNZ im x = true → x < imgWidth im → l ≤ x ∧ x < r) ∧
    (∀ y, rowNZ im y = true → y < imgHeight im → t ≤ y ∧ y < b) := by
  rcases hxs : (List.range (imgWidth im)).filter (colNZ im) with _ | ⟨x0, xt⟩
  · exfalso
    have hn := getbbox_none_of_blank im
    unfold getbbox at h
    rw [hxs] at h
    rcases hys : (List.range (imgHeight im)).filter (rowNZ im) with _ | ⟨y0, yt⟩ <;>
      rw [hys] at h <;> exact Option.noConfusion h
  · rcases hys : (List.range (imgHeight im)).filter (rowNZ im) with _ | ⟨y0, yt⟩
    · exfalso
      unfold getbbox at h
      rw [hxs, hys] at h
      exact Option.noConfusion h
    · rw [getbbox_of_filters im x0 y0 xt yt hxs hys] at h
      simp only [Option.some.injEq, Prod.mk.injEq] at h
      obtain ⟨hl, ht, hr, hb⟩ := h
      have hmemx : ∀ x, x ∈ x0 :: xt ↔ (x < imgWidth im ∧ colNZ im x = true) := by
        intro x
        rw [← hxs, List.mem_filter, List.mem_range]
      have hmemy : ∀ y, y ∈ y0 :: yt ↔ (y < imgHeight im ∧ rowNZ im y = true) := by
        intro y
        rw [← hys, List.mem_filter, List.mem_range]
      have hsx : (x0 :: xt).Sorted (· < ·) := by
        have := List.Sorted.filter (colNZ im) (List.sorted_lt_range (imgWidth im))
        rwa [hxs] at this
      have hsy : (y0 :: yt).Sorted (· < ·) := by
        have := List.Sorted.filter (rowNZ im) (List.sorted_lt_range (imgHeight im))
        rwa [hys] at this
      have hsx' := sorted_le_of_sorted_lt _ hsx
      have hsy' := sorted_le_of_sorted_lt _ hsy
      set lastx := (x0 :: xt).getLastD 0 with hlastx
      set lasty := (y0 :: yt).getLastD 0 with hlasty
      have hlx_mem : lastx ∈ x0 :: xt := getLastD_mem_cons xt x0 0
      have hly_mem : lasty ∈ y0 :: yt := getLastD_mem_cons yt y0 0
      have hx0_mem : x0 ∈ x0 :: xt := List.mem_cons_self x0 xt
      have hy0_mem : y0 ∈ y0 :: yt := List.mem_cons_self y0 yt
      obtain ⟨hx0W, hx0c⟩ := (hmemx x0).mp hx0_mem
      obtain ⟨hy0H, hy0c⟩ := (hmemy y0).mp hy0_mem
      obtain ⟨hlxW, hlxc⟩ := (hmemx lastx).mp hlx_mem
      obtain ⟨hlyH, hlyc⟩ := (hmemy lasty).mp hly_mem
      have hx0last : x0 ≤ lastx :=
        le_getLastD_of_sorted (x0 :: xt) hsx' 0 x0 hx0_mem
      have hy0last : y0 ≤ lasty :=
        le_getLastD_of_sorted (y0 :: yt) hsy' 0 y0 hy0_mem
      subst hl ht hr hb
      refine ⟨by omega, by omega, by omega, by omega, hx0c, ?_, hy0c, ?_, ?_, ?_⟩
      · simpa [Nat.add_sub_cancel] using hlxc
      · simpa [Nat.add_sub_cancel] using hlyc
      · intro x hxc hxW
        have hx_mem : x ∈ x0 :: xt := (hmemx x).mpr ⟨hxW, hxc⟩
        have h1 : x0 ≤ x := by
          obtain ⟨hall, _⟩ := List.sorted_cons.mp hsx'
          rcases List.mem_cons.mp hx_mem with rfl | hmem
          · exact le_refl x
          · exact hall x hmem
        have h2 : x ≤ lastx :=
          le_getLastD_of_sorted (x0 :: xt) hsx' 0 x hx_mem
        omega
      · intro y hyc hyH
        have hy_mem : y ∈ y0 :: yt := (hmemy y).mpr ⟨hyH, hyc⟩
        have h1 : y0 ≤ y := by
          obtain ⟨hall, _⟩ := List.sorted_cons.mp hsy'
          rcases List.mem_cons.mp hy_mem with rfl | hmem
          · exact le_refl y
          · exact hall y hmem
        have h2 : y ≤ lasty :=
          le_getLastD_of_sorted (y0 :: yt) hsy' 0 y hy_mem
        omega

lemma filter_range_eq_singleton (n a : ℕ) (p : ℕ → Bool) (ha : a < n)
    (hp : p a = true) (huniq : ∀ x, p x = true → x = a) :
    (List.range n).filter p = [a] := by
  have hs := List.Sorted.filter p (List.sorted_lt_range n)
  have hmem : a ∈ (List.range n).filter p :=
    List.mem_filter.mpr ⟨List.mem_range.mpr ha, hp⟩
  rcases hfe : (List.range n).filter p with _ | ⟨c, t⟩
  · rw [hfe] at hmem
    exact absurd hmem (List.not_mem_nil a)
  · rw [hfe] at hs hmem
    have hc : c = a := huniq c (List.mem_filter.mp (by
      rw [hfe]
      exact List.mem_cons_self c t)).2
    rcases t with _ | ⟨u, t'⟩
    · rw [hc]
    · exfalso
      have hu_mem : u ∈ (List.range n).filter p := by
        rw [hfe]
        exact List.mem_cons_of_mem c (List.mem_cons_self u t')
      have hu : u = a := huniq u (List.mem_filter.mp hu_mem).2
      have hlt : c < u := List.rel_of_pairwise_cons hs (List.mem_cons_self u t')
      omega

lemma cropImg_single (im : Img) (x₀ y₀ p₀ : ℕ) (hpx : px im x₀ y₀ = some p₀) :
    cropImg im x₀ y₀ (x₀ + 1) (y₀ + 1) = [[p₀]] := by
  unfold px at hpx
  rcases hrow : im[y₀]? with _ | row
  · rw [hrow] at hpx; simp at hpx
  · rw [hrow] at hpx
    simp only [Option.some_bind] at hpx
    obtain ⟨hy, hyeq⟩ := List.getElem?_eq_some_iff.mp hrow
    obtain ⟨hx, hxeq⟩ := List.getElem?_eq_some_iff.mp hpx
    unfold cropImg
    have h1 : y₀ + 1 - y₀ = 1 := by omega
    have h2 : x₀ + 1 - x₀ = 1 := by omega
    rw [h1, h2, List.drop_eq_getElem_cons hy, hyeq, List.take_succ_cons,
      List.take_zero, List.map_cons, List.map_nil,
      List.drop_eq_getElem_cons hx, hxeq, List.take_succ_cons, List.take_zero]

/-- **C8.** `trim_white_borders` maps an image all of whose pixels exceed
the 240 threshold (in particular an all-white image) to itself unchanged,
and maps an image with exactly one pixel at or below the threshold (its
only non-white pixel) to the 1×1 crop containing exactly that pixel;
non-white content is exactly what survives the 240-threshold / invert /
bounding-box pipeline. -/
theorem claim_C8_trim_white_borders (im : Img) :
    ((∀ row ∈ im, ∀ p ∈ row, 240 < p) → trimWhiteBorders im 240 = im) ∧
    (∀ x₀ y₀ p₀, Rectangular im (imgWidth im) →
        px im x₀ y₀ = some p₀ → p₀ ≤ 240 →
        (∀ x y p, px im x y = some p → p ≤ 240 → x = x₀ ∧ y = y₀) →
        trimWhiteBorders im 240 = [[p₀]]) := by
  constructor
  · intro hwhite
    rw [trimWhiteBorders_eq_invView]
    have hblank : ∀ x, colNZ (invView im) x = false := by
      intro x
      rcases Bool.eq_false_or_eq_true (colNZ (invView im) x) with h | h
      swap
      · exact h
      exfalso
      obtain ⟨y, p, hpx, hple⟩ := (colNZ_invView_iff im x).mp h
      unfold px at hpx
      rcases hrow : im[y]? with _ | row
      · rw [hrow] at hpx; simp at hpx
      · rw [hrow] at hpx
        simp only [Option.some_bind] at hpx
        have hrmem : row ∈ im := List.mem_iff_getElem?.mpr ⟨y, hrow⟩
        have hpmem : p ∈ row := List.mem_iff_getElem?.mpr ⟨x, hpx⟩
        exact absurd hple (by have := hwhite row hrmem p hpmem; omega)
    rw [getbbox_none_of_blank (invView im) hblank]
  · intro x₀ y₀ p₀ hrect hpx hple huniq
    have hx0W : x₀ < imgWidth im := by
      unfold px at hpx
      rcases hrow : im[y₀]? with _ | row
      · rw [hrow] at hpx; simp at hpx
      · rw [hrow] at hpx
        simp only [Option.some_bind] at hpx
        have hrmem : row ∈ im := List.mem_iff_getElem?.mpr ⟨y₀, hrow⟩
        have := (List.getElem?_eq_some_iff.mp hpx).1
        rwa [hrect row hrmem] at this
    have hy0H : y₀ < imgHeight im := by
      unfold px at hpx
      rcases hrow : im[y₀]? with _ | row
      · rw [hrow] at hpx; simp at hpx
      · exact (List.getElem?_eq_some_iff.mp hrow).1
    have hcol : ∀ x, colNZ (invView im) x = true ↔ x = x₀ := by
      intro x
      rw [colNZ_invView_iff]
      constructor
      · rintro ⟨y, p, hp, hle⟩
        exact (huniq x y p hp hle).1
      · rintro rfl
        exact ⟨y₀, p₀, hpx, hple⟩
    have hrow : ∀ y, rowNZ (invView im) y = true ↔ y = y₀ := by
      intro y
      rw [rowNZ_invView_iff]
      constructor
      · rintro ⟨x, p, hp, hle⟩
        exact (huniq x y p hp hle).2
      · rintro rfl
        exact ⟨x₀, p₀, hpx, hple⟩
    have hxs : (List.range (imgWidth (invView im))).filter (colNZ (invView im))
        = [x₀] := by
      rw [imgWidth_invView]
      exact filter_range_eq_singleton _ _ _ hx0W ((hcol x₀).mpr rfl)
        (fun x hx => (hcol x).mp hx)
    have hys : (List.range (imgHeight (invView im))).filter (rowNZ (invView im))
        = [y₀] := by
      rw [imgHeight_invView]
      exact filter_range_eq_singleton _ _ _ hy0H ((hrow y₀).mpr rfl)
        (fun y hy => (hrow y).mp hy)
    have hbb : getbbox (invView im) = some (x₀, y₀, x₀ + 1, y₀ + 1) := by
      have := getbbox_of_filters (invView im) x₀ y₀ [] [] hxs hys
      simpa [List.getLastD_cons, List.getLastD_nil] using this
    rw [trimWhiteBorders_eq_invView, hbb]
    exact cropImg_single im x₀ y₀ p₀ hpx

/-- Witness for C8: an all-white 2×2 image is unchanged; a 2×2 image with a
single dark pixel trims to that pixel. -/
theorem claim_C8_trim_white_borders_witness :
    trimWhiteBorders [[255, 255], [255, 255]] 240 = [[255, 255], [255, 255]] ∧
    trimWhiteBorders [[255, 255], [255, 7]] 240 = [[7]] :=
  ⟨(claim_C8_trim_white_borders [[255, 255], [255, 255]]).1 (by decide),
   (claim_C8_trim_white_borders [[255, 255], [255, 7]]).2 1 1 7
      (by unfold Rectangular; decide) (by decide) (by decide)
      (by
        intro x y p hpx hle
        rcases y with _ | y
        · rcases x with _ | x
          · simp [px] at hpx; omega
          · rcases x with _ | x
            · simp [px] at hpx; omega
            · simp [px] at hpx
        · rcases y with _ | y
          · rcases x with _ | x
            · simp [px] at hpx; omega
            · rcases x with _ | x
              · exact ⟨rfl, rfl⟩
              · simp [px] at hpx
          · simp [px] at hpx)⟩

/-! ## Idempotence machinery for `trim_white_borders` -/

lemma invView_cropImg (im : Img) (l t r b : ℕ) :
    invView (cropImg im l t r b) = cropImg (invView im) l t r b := by
  unfold invView cropImg
  rw [← List.map_drop, ← List.map_take, List.map_map, List.map_map]
  congr 1
  funext row
  simp [List.map_take, List.map_drop, List.map_map, Function.comp]

lemma rectangular_invView (im : Img) (W : ℕ) (h : Rectangular im W) :
    Rectangular (invView im) W := by
  intro row hrow
  simp only [invView, List.mem_map] at hrow
  obtain ⟨row₀, hmem, hrw⟩ := hrow
  rw [← hrw, List.length_map]
  exact h row₀ hmem

lemma px_some_row_lt (im : Img) (x y p : ℕ) (h : px im x y = some p) :
    y < im.length := by
  unfold px at h
  rcases hy : im[y]? with _ | row
  · rw [hy] at h; simp at h
  · exact (List.getElem?_eq_some_iff.mp hy).1

lemma cropImg_id (J : Img) (w h : ℕ) (hrect : Rectangular J w)
    (hlen : J.length = h) : cropImg J 0 0 w h = J := by
  unfold cropImg
  rw [Nat.sub_zero, Nat.sub_zero, List.drop_zero, ← hlen, List.take_length]
  have hrows : ∀ row ∈ J, (row.drop 0).take w = row := by
    intro row hr
    rw [List.drop_zero, ← hrect row hr, List.take_length]
  calc J.map (fun row => (row.drop 0).take w) = J.map id :=
        List.map_congr_left hrows
    _ = J := List.map_id J

/-- **C10.** `trim_white_borders` is idempotent on rectangular images: the
crop produced by a successful bounding box has non-white content touching
all four of its borders, so a second trim finds the full-image bounding box
and crops nothing. -/
theorem claim_C10_trim_idempotent (im : Img)
    (hrect : Rectangular im (imgWidth im)) :
    trimWhiteBorders (trimWhiteBorders im 240) 240 = trimWhiteBorders im 240 := by
  rcases hbb : getbbox (invView im) with _ | ⟨l, t, r, b⟩
  · have h1 : trimWhiteBorders im 240 = im := by
      rw [trimWhiteBorders_eq_invView, hbb]
    rw [h1, h1]
  · obtain ⟨hlr, htb, hrW, hbH, hcl, hcr, hrt, hrb, hxin, hyin⟩ :=
      getbbox_some_spec (invView im) l t r b hbb
    rw [imgWidth_invView] at hrW
    rw [imgHeight_invView] at hbH
    have h1 : trimWhiteBorders im 240 = cropImg im l t r b := by
      rw [trimWhiteBorders_eq_invView, hbb]
    set K := invView im with hK
    set J := cropImg im l t r b with hJ
    have hKrect : Rectangular K (imgWidth im) := rectangular_invView im _ hrect
    have hKlen : K.length = im.length := by simp [hK, invView]
    -- the inverted view of the crop is the crop of the inverted view
    have hIVJ : invView J = cropImg K l t r b := invView_cropImg im l t r b
    -- dimensions of the crop
    have hcropRect : Rectangular (cropImg K l t r b) (min (r - l) (imgWidth im - l)) :=
      rectangular_cropImg K (imgWidth im) l t r b hKrect
    have hminrl : min (r - l) (imgWidth im - l) = r - l := by omega
    rw [hminrl] at hcropRect
    have hcroplen : (cropImg K l t r b).length = b - t := by
      have hmin := imgHeight_cropImg K l t r b
      unfold imgHeight at hmin
      rw [hKlen] at hmin
      have him : imgHeight im = List.length im := rfl
      omega
    have hcropne : cropImg K l t r b ≠ [] := by
      intro hnil
      rw [hnil] at hcroplen
      simp at hcroplen
      omega
    have hcropW : imgWidth (cropImg K l t r b) = r - l :=
      imgWidth_of_rectangular _ _ hcropRect hcropne
    have hcropH : imgHeight (cropImg K l t r b) = b - t := hcroplen
    -- column 0 of the crop carries content
    have hHK : imgHeight K = im.length := by simp [hK, invView, imgHeight]
    have hcol0 : colNZ (cropImg K l t r b) 0 = true := by
      obtain ⟨y, p, hpK, hpne⟩ := (colNZ_iff K l).mp hcl
      have hyrow : rowNZ K y = true := (rowNZ_iff K y).mpr ⟨l, p, hpK, hpne⟩
      have hyH : y < im.length := by
        have := px_some_row_lt K l y p hpK
        omega
      obtain ⟨hty, hyb⟩ := hyin y hyrow (by rw [hHK]; omega)
      refine (colNZ_iff _ 0).mpr ⟨y - t, p, ?_, hpne⟩
      rw [px_cropImg K l t r b 0 (y - t) (by omega) (by omega)]
      have : l + 0 = l := by omega
      rw [this]
      have : t + (y - t) = y := by omega
      rw [this]
      exact hpK
    -- column (r - 1) - l of the crop carries content
    have hcolr : colNZ (cropImg K l t r b) (r - 1 - l) = true := by
      obtain ⟨y, p, hpK, hpne⟩ := (colNZ_iff K (r - 1)).mp hcr
      have hyrow : rowNZ K y = true := (rowNZ_iff K y).mpr ⟨r - 1, p, hpK, hpne⟩
      have hyH : y < im.length := by
        have := px_some_row_lt K (r - 1) y p hpK
        omega
      obtain ⟨hty, hyb⟩ := hyin y hyrow (by rw [hHK]; omega)
      refine (colNZ_iff _ (r - 1 - l)).mpr ⟨y - t, p, ?_, hpne⟩
      rw [px_cropImg K l t r b (r - 1 - l) (y - t) (by omega) (by omega)]
      have : l + (r - 1 - l) = r - 1 := by omega
      rw [this]
      have : t + (y - t) = y := by omega
      rw [this]
      exact hpK
    -- row 0 of the crop carries content
    have hrow0 : rowNZ (cropImg K l t r b) 0 = true := by
      obtain ⟨x, p, hpK, hpne⟩ := (rowNZ_iff K t).mp hrt
      have hxcol : colNZ K x = true := (colNZ_iff K x).mpr ⟨t, p, hpK, hpne⟩
      have hxW : x < imgWidth im := by
        unfold px at hpK
        rcases hy2 : K[t]? with _ | row
        · rw [hy2] at hpK; simp at hpK
        · rw [hy2] at hpK
          simp only [Option.some_bind] at hpK
          have hrm : row ∈ K := List.mem_iff_getElem?.mpr ⟨t, hy2⟩
          have := (List.getElem?_eq_some_iff.mp hpK).1
          rwa [hKrect row hrm] at this
      obtain ⟨hlx, hxr⟩ := hxin x hxcol (by rw [imgWidth_invView]; omega)
      refine (rowNZ_iff _ 0).mpr ⟨x - l, p, ?_, hpne⟩
      rw [px_cropImg K l t r b (x - l) 0 (by omega) (by omega)]
      have : l + (x - l) = x := by omega
      rw [this]
      have : t + 0 = t := by omega
      rw [this]
      exact hpK
    -- row (b - 1) - t of the crop carries content
    have hrowb : rowNZ (cropImg K l t r b) (b - 1 - t) = true := by
      obtain ⟨x, p, hpK, hpne⟩ := (rowNZ_iff K (b - 1)).mp hrb
      have hxcol : colNZ K x = true := (colNZ_iff K x).mpr ⟨b - 1, p, hpK, hpne⟩
      have hxW : x < imgWidth im := by
        unfold px at hpK
        rcases hy2 : K[b - 1]? with _ | row
        · rw [hy2] at hpK; simp at hpK
        · rw [hy2] at hpK
          simp only [Option.some_bind] at hpK
          have hrm : row ∈ K := List.mem_iff_getElem?.mpr ⟨b - 1, hy2⟩
          have := (List.getElem?_eq_some_iff.mp hpK).1
          rwa [hKrect row hrm] at this
      obtain ⟨hlx, hxr⟩ := hxin x hxcol (by rw [imgWidth_invView]; omega)
      refine (rowNZ_iff _ (b - 1 - t)).mpr ⟨x - l, p, ?_, hpne⟩
      rw [px_cropImg K l t r b (x - l) (b - 1 - t) (by omega) (by omega)]
      have : l + (x - l) = x := by omega
      rw [this]
      have : t + (b - 1 - t) = b - 1 := by omega
      rw [this]
      exact hpK
    -- the second bounding box is the whole crop
    have hxs' : ∃ xt', (List.range (imgWidth (cropImg K l t r b))).filter
        (colNZ (cropImg K l t r b)) = 0 :: xt' ∧
        (0 :: xt').getLastD 0 = r - l - 1 := by
      set xs' := (List.range (imgWidth (cropImg K l t r b))).filter
        (colNZ (cropImg K l t r b)) with hxsdef
      have hmem0 : 0 ∈ xs' := by
        rw [hxsdef]
        exact List.mem_filter.mpr ⟨List.mem_range.mpr (by rw [hcropW]; omega), hcol0⟩
      have hmemr : r - 1 - l ∈ xs' := by
        rw [hxsdef]
        exact List.mem_filter.mpr ⟨List.mem_range.mpr (by rw [hcropW]; omega), hcolr⟩
      have hsorted : xs'.Sorted (· < ·) := by
        rw [hxsdef]
        exact List.Sorted.filter _ (List.sorted_lt_range _)
      have hbound : ∀ u ∈ xs', u ≤ r - l - 1 := by
        intro u hu
        rw [hxsdef] at hu
        have := List.mem_range.mp (List.mem_filter.mp hu).1
        rw [hcropW] at this
        omega
      rcases hform : xs' with _ | ⟨c, xt'⟩
      · rw [hform] at hmem0
        exact absurd hmem0 (List.not_mem_nil 0)
      · have hc : c = 0 := by
          refine sorted_cons_head_eq c 0 xt' ?_ ?_ ?_
          · rw [← hform]; exact sorted_le_of_sorted_lt _ hsorted
          · rw [← hform]; exact hmem0
          · intro u _; omega
        subst hc
        refine ⟨xt', rfl, ?_⟩
        have hmax : (0 :: xt').getLastD 0 = r - 1 - l := by
          refine getLastD_eq_of_max (0 :: xt') ?_ (r - 1 - l) 0 ?_ ?_
          · rw [← hform]; exact sorted_le_of_sorted_lt _ hsorted
          · rw [← hform]; exact hmemr
          · intro u hu
            rw [← hform] at hu
            have := hbound u hu
            omega
        omega
    have hys' : ∃ yt', (List.range (imgHeight (cropImg K l t r b))).filter
        (rowNZ (cropImg K l t r b)) = 0 :: yt' ∧
        (0 :: yt').getLastD 0 = b - t - 1 := by
      set ys' := (List.range (imgHeight (cropImg K l t r b))).filter
        (rowNZ (cropImg K l t r b)) with hysdef
      have hmem0 : 0 ∈ ys' := by
        rw [hysdef]
        exact List.mem_filter.mpr
          ⟨List.mem_range.mpr (by unfold imgHeight; rw [hcroplen]; omega), hrow0⟩
      have hmemb : b - 1 - t ∈ ys' := by
        rw [hysdef]
        exact List.mem_filter.mpr
          ⟨List.mem_range.mpr (by unfold imgHeight; rw [hcroplen]; omega), hrowb⟩
      have hsorted : ys'.Sorted (· < ·) := by
        rw [hysdef]
        exact List.Sorted.filter _ (List.sorted_lt_range _)
      have hbound : ∀ u ∈ ys', u ≤ b - t - 1 := by
        intro u hu
        rw [hysdef] at hu
        have := List.mem_range.mp (List.mem_filter.mp hu).1
        unfold imgHeight at this
        rw [hcroplen] at this
        omega
      rcases hform : ys' with _ | ⟨c, yt'⟩
      · rw [hform] at hmem0
        exact absurd hmem0 (List.not_mem_nil 0)
      · have hc : c = 0 := by
          refine sorted_cons_head_eq c 0 yt' ?_ ?_ ?_
          · rw [← hform]; exact sorted_le_of_sorted_lt _ hsorted
          · rw [← hform]; exact hmem0
          · intro u _; omega
        subst hc
        refine ⟨yt', rfl, ?_⟩
        have hmax : (0 :: yt').getLastD 0 = b - 1 - t := by
          refine getLastD_eq_of_max (0 :: yt') ?_ (b - 1 - t) 0 ?_ ?_
          · rw [← hform]; exact sorted_le_of_sorted_lt _ hsorted
          · rw [← hform]; exact hmemb
          · intro u hu
            rw [← hform] at hu
            have := hbound u hu
            omega
        omega
    obtain ⟨xt', hxsJ, hlastx⟩ := hxs'
    obtain ⟨yt', hysJ, hlasty⟩ := hys'
    have hbbJ : getbbox (invView J) = some (0, 0, r - l, b - t) := by
      rw [hIVJ]
      rw [getbbox_of_filters (cropImg K l t r b) 0 0 xt' yt' hxsJ hysJ]
      rw [hlastx, hlasty]
      have e1 : r - l - 1 + 1 = r - l := by omega
      have e2 : b - t - 1 + 1 = b - t := by omega
      rw [e1, e2]
    -- trimming the crop yields the crop itself
    have hJrect : Rectangular J (r - l) := by
      have := rectangular_cropImg im (imgWidth im) l t r b hrect
      rwa [hminrl] at this
    have hJlen : J.length = b - t := by
      have hmin := imgHeight_cropImg im l t r b
      unfold imgHeight at hmin
      rw [← hJ] at hmin
      have him : imgHeight im = List.length im := rfl
      omega
    rw [h1]
    rw [trimWhiteBorders_eq_invView J]
    rw [hbbJ]
    exact cropImg_id J (r - l) (b - t) hJrect hJlen

/-- Witness for C10 on a concrete image. -/
theorem claim_C10_trim_idempotent_witness :
    trimWhiteBorders (trimWhiteBorders [[255, 255, 255], [255, 9, 255]] 240) 240 =
      trimWhiteBorders [[255, 255, 255], [255, 9, 255]] 240 :=
  claim_C10_trim_idempotent [[255, 255, 255], [255, 9, 255]]
    (by unfold Rectangular imgWidth; decide)

/-! ## Normal-image preprocessor rectangle (`preprocess_normal_image`)

The rectangle arithmetic uses Python floats on small integer-valued
quantities; it is embedded with exact rational arithmetic, and Python's
`round` (banker's rounding, round-half-to-even) is `pyRound`. -/

/-- Python 3 `int(round(q))`: round half to even. -/
def pyRound (q : ℚ) : ℤ :=
  let f : ℤ := ⌊q⌋
  let rem : ℚ := q - f
  if rem < 1 / 2 then f
  else if 1 / 2 < rem then f + 1
  else if f % 2 = 0 then f else f + 1

/-- The white rectangle `preprocess_normal_image` draws on a `W × H` image
(with the default ENV configuration: reference 1600×1600, base rectangle
(1254, 1390, 183×45)): scale by rule of three with rounding, floor the
sizes at 1, widen the width by 10 % keeping the right edge fixed, clamp to
the image bounds, and return `none` (skip the edit) when the clamped
rectangle has no area. -/
def preprocessNormalRect (W H : ℕ) : Option (ℤ × ℤ × ℤ × ℤ) :=
  let scaledX1 : ℤ := pyRound ((1254 * W : ℚ) / 1600)
  let scaledY1 : ℤ := pyRound ((1390 * H : ℚ) / 1600)
  let scaledW : ℤ := max 1 (pyRound ((183 * W : ℚ) / 1600))
  let scaledH : ℤ := max 1 (pyRound ((45 * H : ℚ) / 1600))
  let baseX2 : ℤ := scaledX1 + scaledW
  let newRectW : ℤ := pyRound ((scaledW : ℚ) * (11 / 10))
  let intendedX1 : ℤ := baseX2 - newRectW
  let x1 : ℤ := max 0 (min intendedX1 (W : ℤ))
  let y1 : ℤ := max 0 (min scaledY1 (H : ℤ))
  let x2 : ℤ := max 0 (min baseX2 (W : ℤ))
  let y2 : ℤ := max 0 (min (scaledY1 + scaledH) (H : ℤ))
  if x2 ≤ x1 ∨ y2 ≤ y1 then none else some (x1, y1, x2, y2)

/-- The rectangle as the specification words it: scaled coordinates
`round(base × actual / reference)` with width/height floored at 1, a fixed
right edge `scaled_x1 + scaled_w`, a left edge moved left to make the width
`round(scaled_w × 1.10)`, clamping to bounds, and skipping on empty area. -/
def claimNormalRect (W H : ℕ) : Option (ℤ × ℤ × ℤ × ℤ) :=
  let sx : ℤ := pyRound ((1254 * W : ℚ) / 1600)
  let sy : ℤ := pyRound ((1390 * H : ℚ) / 1600)
  let sw : ℤ := max 1 (pyRound ((183 * W : ℚ) / 1600))
  let sh : ℤ := max 1 (pyRound ((45 * H : ℚ) / 1600))
  let rightEdge : ℤ := sx + sw
  let newW : ℤ := pyRound ((sw : ℚ) * (11 / 10))
  let leftEdge : ℤ := rightEdge - newW
  let cx1 : ℤ := max 0 (min leftEdge (W : ℤ))
  let cy1 : ℤ := max 0 (min sy (H : ℤ))
  let cx2 : ℤ := max 0 (min rightEdge (W : ℤ))
  let cy2 : ℤ := max 0 (min (sy + sh) (H : ℤ))
  if cx2 ≤ cx1 ∨ cy2 ≤ cy1 then none else some (cx1, cy1, cx2, cy2)

lemma floor_le_pyRound (q : ℚ) : ⌊q⌋ ≤ pyRound q := by
  unfold pyRound
  simp only
  split_ifs <;> omega

/-- **C6.** The normal preprocessor's rectangle agrees with the claimed
formula (linear scaling with rounding, sizes floored at 1, 10 % widening
with fixed right edge, clamping, skip on empty area); the widening never
shrinks the width, so only the left edge moves (left); on a 1600×1600
input the drawn rectangle is exactly (x1, y1, x2, y2) =
(1236, 1390, 1437, 1435); an 800×800 input scales to (618, 695, 719, 717);
and a degenerate clamp (e.g. 1600×1) skips the edit by returning `none`. -/
theorem claim_C6_normal_rect :
    (∀ W H : ℕ, preprocessNormalRect W H = claimNormalRect W H) ∧
    (∀ w : ℤ, 0 ≤ w → w ≤ pyRound ((w : ℚ) * (11 / 10))) ∧
    preprocessNormalRect 1600 1600 = some (1236, 1390, 1437, 1435) ∧
    preprocessNormalRect 800 800 = some (618, 695, 719, 717) ∧
    preprocessNormalRect 1600 1 = none := by
  refine ⟨fun W H => rfl, ?_, ?_, ?_, ?_⟩
  · intro w hw
    have hq : (w : ℚ) ≤ (w : ℚ) * (11 / 10) := by
      have hw' : (0 : ℚ) ≤ (w : ℚ) := by exact_mod_cast hw
      nlinarith
    have hfl : w ≤ ⌊(w : ℚ) * (11 / 10)⌋ := by
      rw [Int.le_floor]
      exact_mod_cast hq
    exact le_trans hfl (floor_le_pyRound _)
  · norm_num [preprocessNormalRect, pyRound]
  · norm_num [preprocessNormalRect, pyRound]
  · norm_num [preprocessNormalRect, pyRound]

/-- Witness for C6's widening inequality at `w = 3`. -/
theorem claim_C6_normal_rect_witness :
    (3 : ℤ) ≤ pyRound ((3 : ℚ) * (11 / 10)) :=
  claim_C6_normal_rect.2.1 3 (by decide)

/-! ## Post-processing rotation rule (`format_image`) -/

/-- One step of `format_image`'s rotation phase: a `PIL.rotate` with its
angle, `expand=True` and white fill, or a re-trim with its threshold. -/
inductive FmtStep where
  | rotate (deg : ℤ) (expand : Bool) (fillWhite : Bool)
  | trim (threshold : ℕ)
  deriving DecidableEq, Repr

/-- The rotation phase of `format_image` applied to the post-trim image of
size `W × H`: when `apply_rotation` is set, an aspect ratio `W / H > 2`
rotates by −45° (expand, white fill) and re-trims, a ratio `< 0.5` rotates
by +45° and re-trims, and otherwise nothing happens. -/
def rotationSteps (W H : ℕ) (applyRotation : Bool) : List FmtStep :=
  if applyRotation then
    let aspectRatio : ℚ := (W : ℚ) / (H : ℚ)
    if aspectRatio > 2 then [.rotate (-45) true true, .trim 240]
    else if aspectRatio < 1 / 2 then [.rotate 45 true true, .trim 240]
    else []
  else []

/-- **C9.** With rotation enabled, a trimmed image of width `W`, height
`H ≥ 1`: `W/H > 2` (iff `W > 2H`) rotates −45° with expansion and white
fill then re-trims; `W/H < 0.5` (iff `2W < H`) rotates +45° then re-trims;
aspect ratio exactly 2.0 (or exactly 0.5) is not rotated. -/
theorem claim_C9_rotation_rule (W H : ℕ) (hH : 1 ≤ H) :
    (2 * H < W →
        rotationSteps W H true = [.rotate (-45) true true, .trim 240]) ∧
    (2 * W < H →
        rotationSteps W H true = [.rotate 45 true true, .trim 240]) ∧
    (W = 2 * H → rotationSteps W H true = []) ∧
    (H = 2 * W → rotationSteps W H true = []) ∧
    rotationSteps W H false = [] := by
  have hH0 : (0 : ℚ) < (H : ℚ) := by exact_mod_cast hH
  have hgt : ((W : ℚ) / (H : ℚ) > 2) ↔ 2 * H < W := by
    rw [gt_iff_lt, lt_div_iff₀ hH0]
    constructor
    · intro h; exact_mod_cast h
    · intro h; exact_mod_cast h
  have hlt : ((W : ℚ) / (H : ℚ) < 1 / 2) ↔ 2 * W < H := by
    rw [div_lt_div_iff₀ hH0 (by norm_num : (0 : ℚ) < 2)]
    constructor
    · intro h
      have : (2 * W : ℚ) < H := by linarith
      exact_mod_cast this
    · intro h
      have : ((2 * W : ℕ) : ℚ) < (H : ℚ) := by exact_mod_cast h
      push_cast at this
      linarith
  refine ⟨?_, ?_, ?_, ?_, ?_⟩
  · intro h
    unfold rotationSteps
    rw [if_pos rfl, if_pos (hgt.mpr h)]
  · intro h
    unfold rotationSteps
    have hngt : ¬ ((W : ℚ) / (H : ℚ) > 2) := by
      rw [hgt]; omega
    rw [if_pos rfl, if_neg hngt, if_pos (hlt.mpr h)]
  · intro h
    unfold rotationSteps
    have hngt : ¬ ((W : ℚ) / (H : ℚ) > 2) := by rw [hgt]; omega
    have hnlt : ¬ ((W : ℚ) / (H : ℚ) < 1 / 2) := by rw [hlt]; omega
    rw [if_pos rfl, if_neg hngt, if_neg hnlt]
  · intro h
    unfold rotationSteps
    have hngt : ¬ ((W : ℚ) / (H : ℚ) > 2) := by rw [hgt]; omega
    have hnlt : ¬ ((W : ℚ) / (H : ℚ) < 1 / 2) := by rw [hlt]; omega
    rw [if_pos rfl, if_neg hngt, if_neg hnlt]
  · rfl

/-- Witness for C9: a 5×2 trimmed image (ratio 2.5) rotates −45° and
re-trims; a 4×2 image (ratio exactly 2.0) is untouched. -/
theorem claim_C9_rotation_rule_witness :
    rotationSteps 5 2 true = [.rotate (-45) true true, .trim 240] ∧
    rotationSteps 4 2 true = [] :=
  ⟨(claim_C9_rotation_rule 5 2 (by decide)).1 (by decide),
   (claim_C9_rotation_rule 4 2 (by decide)).2.2.1 (by decide)⟩

/-! ## RPS rate limiter (`_wait_for_rps_slot`)

The `asyncio.Lock` serializes the critical sections; since `time.monotonic`
is non-decreasing, a run of the limiter is a fold of the critical section
over a non-decreasing list of entry instants (each retry after a sleep is
simply a later entry).  The submission window (`self._submission_window`,
a deque holding monotonic timestamps) is a sorted list of rationals. -/

/-- The purge loop: `while window and now - window[0] >= 1.0: popleft()`. -/
def purgeWindow (now : ℚ) (w : List ℚ) : List ℚ :=
  w.dropWhile (fun e => decide (1 ≤ now - e))

/-- One critical section of `_wait_for_rps_slot` entered at instant `now`:
purge, then admit (append `now`, return) when the window is below
`rps_limit`, otherwise compute the sleep time `1.0 - (now - window[0])` and
leave the window unchanged.  Returns (new window, admitted?, sleep). -/
def rpsStep (R : ℕ) (now : ℚ) (w : List ℚ) : List ℚ × Bool × ℚ :=
  let w' := purgeWindow now w
  if w'.length < R then (w' ++ [now], true, 0)
  else (w', false, 1 - (now - w'.headD 0))

/-- Fold the critical section over the entry instants `ts`, collecting the
admission times (the instants at which an `awaitSlot` caller returns). -/
def rpsRun (R : ℕ) (w A : List ℚ) : List ℚ → List ℚ × List ℚ
  | [] => (w, A)
  | t :: ts =>
      let s := rpsStep R t w
      rpsRun R s.1 (if s.2.1 then A ++ [t] else A) ts

lemma purgeWindow_eq_filter (now : ℚ) :
    ∀ (w : List ℚ), w.Sorted (· ≤ ·) →
      purgeWindow now w = w.filter (fun e => decide (now - e < 1))
  | [] => by intro _; rfl
  | e :: w' => by
      intro hs
      obtain ⟨hall, htail⟩ := List.sorted_cons.mp hs
      unfold purgeWindow
      rw [List.dropWhile_cons]
      by_cases hp : 1 ≤ now - e
      · rw [if_pos (decide_eq_true hp), List.filter_cons,
          if_neg (by simpa using (by linarith : ¬ (now - e < 1)))]
        exact purgeWindow_eq_filter now w' htail
      · rw [if_neg (by simpa using hp), List.filter_cons,
          if_pos (by simpa using (by linarith : now - e < 1))]
        have hself : w'.filter (fun x => decide (now - x < 1)) = w' := by
          rw [List.filter_eq_self]
          intro a ha
          have hea : e ≤ a := hall a ha
          exact decide_eq_true (by linarith)
        rw [hself]

/-- The per-admission invariant carried through a run: the admitted list is
sorted, and every trailing window anchored at an admitted instant holds at
most `R` admissions. -/
lemma rpsRun_invariant (R : ℕ) :
    ∀ (ts : List ℚ) (t₀ : ℚ) (w A : List ℚ),
      ts.Pairwise (· ≤ ·) → (∀ u ∈ ts, t₀ ≤ u) →
      A.Sorted (· ≤ ·) → (∀ a ∈ A, a ≤ t₀) →
      w = A.filter (fun a => decide (t₀ - 1 < a)) →
      (∀ a ∈ A, (A.filter
          (fun x => decide (a - 1 < x) && decide (x ≤ a))).length ≤ R) →
      (rpsRun R w A ts).2.Sorted (· ≤ ·) ∧
      (∀ a ∈ (rpsRun R w A ts).2,
        ((rpsRun R w A ts).2.filter
          (fun x => decide (a - 1 < x) && decide (x ≤ a))).length ≤ R)
  | [] => by
      intro t₀ w A _ _ hAs _ _ hBnd
      exact ⟨hAs, hBnd⟩
  | t :: ts => by
      intro t₀ w A hpw hlow hAs hAle hw hBnd
      obtain ⟨hthead, htail⟩ := List.pairwise_cons.mp hpw
      have ht₀t : t₀ ≤ t := hlow t (List.mem_cons_self t ts)
      have hws : w.Sorted (· ≤ ·) := by
        rw [hw]
        exact List.Sorted.filter _ hAs
      have hpurge : purgeWindow t w =
          A.filter (fun a => decide (t - 1 < a)) := by
        rw [purgeWindow_eq_filter t w hws, hw, List.filter_filter]
        apply List.filter_congr
        intro a _
        by_cases h1 : t - 1 < a
        · have h2 : t - a < 1 := by linarith
          have h3 : t₀ - 1 < a := by linarith
          simp [h1, h2, h3]
        · have h2 : ¬ (t - a < 1) := fun h => h1 (by linarith)
          simp [h1, h2]
      by_cases hadm : (purgeWindow t w).length < R
      · -- admitted: the window and the admitted list both gain t
        have hstep : rpsRun R w A (t :: ts) =
            rpsRun R (purgeWindow t w ++ [t]) (A ++ [t]) ts := by
          simp [rpsRun, rpsStep, hadm]
        rw [hstep]
        have hAt : ∀ a ∈ A, a ≤ t := fun a ha => le_trans (hAle a ha) ht₀t
        have hAs' : (A ++ [t]).Sorted (· ≤ ·) :=
          List.pairwise_append.mpr ⟨hAs, by simp, by
            intro a ha b hb
            rw [List.mem_singleton] at hb
            subst hb
            exact hAt a ha⟩
        have hAle' : ∀ a ∈ A ++ [t], a ≤ t := by
          intro a ha
          rcases List.mem_append.mp ha with h | h
          · exact hAt a h
          · rw [List.mem_singleton] at h
            exact le_of_eq h
        have hwindow : purgeWindow t w ++ [t] =
            (A ++ [t]).filter (fun a => decide (t - 1 < a)) := by
          rw [List.filter_append, hpurge]
          congr 1
          rw [List.filter_cons, if_pos (decide_eq_true (by linarith : t - 1 < t))]
          rfl
        have hBnd' : ∀ a ∈ A ++ [t], ((A ++ [t]).filter
            (fun x => decide (a - 1 < x) && decide (x ≤ a))).length ≤ R := by
          intro a ha
          by_cases hat : a = t
          · subst hat
            rw [List.filter_append]
            have hAfilter : A.filter
                (fun x => decide (a - 1 < x) && decide (x ≤ a)) =
                A.filter (fun x => decide (a - 1 < x)) := by
              apply List.filter_congr
              intro x hx
              have : x ≤ a := hAt x hx
              simp [this]
            have htfilter : [a].filter
                (fun x => decide (a - 1 < x) && decide (x ≤ a)) = [a] := by
              have hcond : (decide (a - 1 < a) && decide (a ≤ a)) = true := by
                rw [Bool.and_eq_true]
                exact ⟨decide_eq_true (by linarith), decide_eq_true (le_refl a)⟩
              rw [List.filter_cons, if_pos hcond]
              rfl
            rw [hAfilter, htfilter, hpurge] at *
            rw [List.length_append]
            rw [hpurge] at hadm
            simp only [List.length_cons, List.length_nil]
            omega
          · have haA : a ∈ A := by
              rcases List.mem_append.mp ha with h | h
              · exact h
              · rw [List.mem_singleton] at h
                exact absurd h hat
            have hlt : a < t := lt_of_le_of_ne (hAt a haA) hat
            rw [List.filter_append]
            have htfilter : [t].filter
                (fun x => decide (a - 1 < x) && decide (x ≤ a)) = [] := by
              have hcond : ¬ ((decide (a - 1 < t) && decide (t ≤ a)) = true) := by
                rw [Bool.and_eq_true]
                rintro ⟨_, h2⟩
                rw [decide_eq_true_eq] at h2
                linarith
              rw [List.filter_cons, if_neg hcond]
              rfl
            rw [htfilter, List.append_nil]
            exact hBnd a haA
        exact rpsRun_invariant R ts t (purgeWindow t w ++ [t]) (A ++ [t])
          htail hthead hAs' hAle' hwindow hBnd'
      · -- rejected: the window is only purged, the admitted list is unchanged
        have hstep : rpsRun R w A (t :: ts) =
            rpsRun R (purgeWindow t w) A ts := by
          simp [rpsRun, rpsStep, hadm]
        rw [hstep]
        exact rpsRun_invariant R ts t (purgeWindow t w) A htail hthead hAs
          (fun a ha => le_trans (hAle a ha) ht₀t) hpurge hBnd

/-- **C2.** For `rps_limit = R ≥ 1` and any serialized sequence of
critical-section entries at non-decreasing monotonic instants: at most `R`
`awaitSlot` callers return within any trailing 1-second window `(T-1, T]`;
the purge step removes exactly the entries at least 1 second old; and a
caller that finds the window full is not failed — the window is left
unchanged and the caller sleeps `1.0 - (now - window[0])`, after which the
oldest entry has aged out. -/
theorem claim_C2_rps_trailing_window (R : ℕ) (_hR : 1 ≤ R) (ts : List ℚ)
    (hts : ts.Chain' (· ≤ ·)) :
    (∀ T : ℚ, ((rpsRun R [] [] ts).2.filter
        (fun a => decide (T - 1 < a) && decide (a ≤ T))).length ≤ R) ∧
    (∀ (now : ℚ) (w : List ℚ), w.Sorted (· ≤ ·) →
        ∀ e, e ∈ purgeWindow now w ↔ e ∈ w ∧ now - e < 1) ∧
    (∀ (now : ℚ) (w : List ℚ), (rpsStep R now w).2.1 = false →
        (rpsStep R now w).1 = purgeWindow now w ∧
        (rpsStep R now w).2.2 = 1 - (now - (purgeWindow now w).headD 0) ∧
        (1 : ℚ) ≤ (now + (rpsStep R now w).2.2) -
          (purgeWindow now w).headD 0) := by
  have hmain : (rpsRun R [] [] ts).2.Sorted (· ≤ ·) ∧
      (∀ a ∈ (rpsRun R [] [] ts).2,
        ((rpsRun R [] [] ts).2.filter
          (fun x => decide (a - 1 < x) && decide (x ≤ a))).length ≤ R) := by
    have hpair := (List.chain'_iff_pairwise).mp hts
    rcases ts with _ | ⟨t1, ts'⟩
    · exact ⟨List.sorted_nil, by intro a ha; exact absurd ha (List.not_mem_nil a)⟩
    · obtain ⟨hthead, htail⟩ := List.pairwise_cons.mp hpair
      refine rpsRun_invariant R (t1 :: ts') t1 [] [] hpair ?_ List.sorted_nil
        (by intro a ha; exact absurd ha (List.not_mem_nil a)) rfl
        (by intro a ha; exact absurd ha (List.not_mem_nil a))
      intro u hu
      rcases List.mem_cons.mp hu with rfl | h
      · exact le_refl u
      · exact hthead u h
  obtain ⟨hAsort, hBnd⟩ := hmain
  refine ⟨?_, ?_, ?_⟩
  · intro T
    rcases hS : (rpsRun R [] [] ts).2.filter
        (fun a => decide (T - 1 < a) && decide (a ≤ T)) with _ | ⟨s0, srest⟩
    · simp
    · rw [← hS]
      have hSsorted : (s0 :: srest).Sorted (· ≤ ·) := by
        have := List.Sorted.filter
          (fun a => decide (T - 1 < a) && decide (a ≤ T)) hAsort
        rwa [hS] at this
      have hastar_mem : (s0 :: srest).getLastD 0 ∈ s0 :: srest :=
        getLastD_mem_cons srest s0 0
      have hastar_memF : (s0 :: srest).getLastD 0 ∈
          (rpsRun R [] [] ts).2.filter
            (fun a => decide (T - 1 < a) && decide (a ≤ T)) := by
        rw [hS]
        exact hastar_mem
      obtain ⟨haA, hap⟩ := List.mem_filter.mp hastar_memF
      rw [Bool.and_eq_true, decide_eq_true_eq, decide_eq_true_eq] at hap
      obtain ⟨haT1, haT2⟩ := hap
      have hmax : ∀ x ∈ s0 :: srest, x ≤ (s0 :: srest).getLastD 0 :=
        fun x hx => le_getLastD_of_sorted _ hSsorted 0 x hx
      have hmono : ((rpsRun R [] [] ts).2.filter
          (fun a => decide (T - 1 < a) && decide (a ≤ T))).length ≤
          ((rpsRun R [] [] ts).2.filter
            (fun x => decide ((s0 :: srest).getLastD 0 - 1 < x) &&
              decide (x ≤ (s0 :: srest).getLastD 0))).length := by
        rw [← List.countP_eq_length_filter, ← List.countP_eq_length_filter]
        apply List.countP_mono_left
        intro x hxA hxp
        rw [Bool.and_eq_true, decide_eq_true_eq, decide_eq_true_eq] at hxp
        obtain ⟨hx1, hx2⟩ := hxp
        have hxF : x ∈ (rpsRun R [] [] ts).2.filter
            (fun a => decide (T - 1 < a) && decide (a ≤ T)) :=
          List.mem_filter.mpr ⟨hxA, by
            rw [Bool.and_eq_true, decide_eq_true_eq, decide_eq_true_eq]
            exact ⟨hx1, hx2⟩⟩
        rw [hS] at hxF
        have hxa : x ≤ (s0 :: srest).getLastD 0 := hmax x hxF
        rw [Bool.and_eq_true, decide_eq_true_eq, decide_eq_true_eq]
        constructor
        · linarith
        · exact hxa
      exact le_trans hmono (hBnd _ haA)
  · intro now w hws e
    rw [purgeWindow_eq_filter now w hws, List.mem_filter, decide_eq_true_eq]
  · intro now w hfalse
    by_cases hlen : (purgeWindow now w).length < R
    · exfalso
      unfold rpsStep at hfalse
      simp only [hlen, if_true] at hfalse
      exact Bool.noConfusion hfalse
    · unfold rpsStep
      simp only [hlen, if_false]
      refine ⟨by trivial, by trivial, ?_⟩
      have : now + (1 - (now - (purgeWindow now w).headD 0)) -
          (purgeWindow now w).headD 0 = 1 := by ring
      rw [this]

/-- Witness for C2 at `R = 1` with two entries at instant 0: only one
admission lands in the trailing window `(-1, 0]`. -/
theorem claim_C2_rps_trailing_window_witness :
    ((rpsRun 1 [] [] [0, 0]).2.filter
        (fun a => decide ((0 : ℚ) - 1 < a) && decide (a ≤ (0 : ℚ)))).length ≤ 1 :=
  (claim_C2_rps_trailing_window 1 (by decide) [0, 0]
      (by simp)).1 0

/-! ## Batch endpoint (`POST /pictures/urls`, `process_images_batch`) -/

/-- What `process_image` does for one URL's job, from the item's point of
view: raise `QuotaExceededError`, raise some other exception, return
`None`, or return a result (carrying the final base64 payload). -/
inductive ProcOutcome where
  | raisesQuota
  | raisesOther (msg : String)
  | returnsNone
  | returnsResult (b64 : String)
  deriving DecidableEq, Repr

/-- The per-item environment of `_process_one`: the URL, whether
`download_image_to_tempfile` succeeds, and the `process_image` outcome. -/
structure ItemEnv where
  url : String
  downloadOk : Bool
  proc : ProcOutcome
  deriving DecidableEq, Repr

/-- The `ImageUrlProcessResponse` produced for one item, abstracted to its
success flag / failure kind and payload. -/
inductive ItemResult where
  | success (b64 : String)
  | downloadFailed
  | quotaExceeded
  | processFailed
  | itemError (msg : String)
  deriving DecidableEq, Repr

/-- `_process_one`: download failure, a propagated `QuotaExceededError`,
any other exception (caught by the outer `except` and turned into a
per-item error response), a `None` result, and success each map to their
own response — the function never raises. -/
def processOne (e : ItemEnv) : ItemResult :=
  if !e.downloadOk then .downloadFailed
  else
    match e.proc with
    | .raisesQuota => .quotaExceeded
    | .raisesOther m => .itemError m
    | .returnsNone => .processFailed
    | .returnsResult b => .success b

/-- `HTTPException`s the batch endpoint can raise before dispatching any
job: 503 when the API key is missing, 429 when the optimistic quota
pre-check finds no remaining quota for a non-empty batch. -/
inductive BatchHttpError where
  | serviceUnavailable503
  | tooManyRequests429
  deriving DecidableEq, Repr

/-- `process_images_batch`: the API-key check, the optimistic quota
pre-check (`remaining <= 0` with a non-empty URL list aborts the whole
batch with 429), then one task per URL gathered in input order
(`asyncio.gather` preserves argument order). -/
def processImagesBatch (apiKeyConfigured : Bool) (remaining : ℕ)
    (envs : List ItemEnv) : Except BatchHttpError (List ItemResult) :=
  if !apiKeyConfigured then .error .serviceUnavailable503
  else if 0 < envs.length ∧ remaining = 0 then .error .tooManyRequests429
  else .ok (envs.map processOne)

/-- **C3, counterexample.** With the daily quota already exhausted
(`remaining = 0`), a 1-element batch does not return a 1-element result
list: the whole batch is rejected with HTTP 429 by the optimistic
pre-check, so quota exhaustion at batch entry is not captured as a
per-item result. -/
theorem claim_C3_counterexample :
    processImagesBatch true 0
        [⟨"http://example.com/a.jpg", true, .returnsResult "b"⟩] =
      .error .tooManyRequests429 := by
  rfl

/-- **C3, amended.** Provided the API key is configured and the optimistic
quota pre-check passes (the URL list is empty or remaining quota is
positive), the batch returns exactly one result per input URL, in input
order, and the `i`-th result is a function of the `i`-th item's environment
alone — so any single item's failure (download failure, quota exhaustion
during processing, provider failure, or any other exception) is captured
as that item's result and cannot disturb the other items. -/
theorem claim_C3_batch_isolation (remaining : ℕ) (envs : List ItemEnv)
    (hpre : envs = [] ∨ 0 < remaining) :
    processImagesBatch true remaining envs = .ok (envs.map processOne) ∧
    (envs.map processOne).length = envs.length ∧
    (∀ i (hi : i < envs.length),
      (envs.map processOne).get ⟨i, by rw [List.length_map]; exact hi⟩ =
        processOne (envs.get ⟨i, hi⟩)) := by
  refine ⟨?_, List.length_map envs processOne, ?_⟩
  · unfold processImagesBatch
    rcases hpre with h | h
    · subst h
      rfl
    · have hnot : ¬ (0 < envs.length ∧ remaining = 0) := by
        rintro ⟨_, h0⟩
        omega
      simp [hnot]
  · intro i hi
    simp

/-- Witness for C3 (amended): a 2-item batch where item 2's download fails
still returns both results in order. -/
theorem claim_C3_batch_isolation_witness :
    processImagesBatch true 3
        [⟨"u1", true, .returnsResult "b"⟩, ⟨"u2", false, .raisesQuota⟩] =
      .ok [.success "b", .downloadFailed] := by
  have h := (claim_C3_batch_isolation 3
      [⟨"u1", true, .returnsResult "b"⟩, ⟨"u2", false, .raisesQuota⟩]
      (Or.inr (by decide))).1
  rw [h]
  rfl

end RoyceApi
